import Mathlib

/-
Verification of the Anritsu spectrum-analyzer save-file decoder and
spectrum extractor (`src/anritsuparser.py`).

The decoder (`parseData`) splits the input text on newline characters and
scans the lines once, maintaining a nesting level; it builds an ordered
nested key/value tree, prunes empty top-level sections, and compresses the
remaining top-level scalar entries into a `METADATA` map placed first.
The extractor (`parseSpectrum`) searches the tree for a node whose keys
all have the form `P_<digits>` and splits each value into a
(power, frequency) pair of decimal numbers.

Python strings are modelled as Lean `String`; the Python string methods
used by the source (`split`, `strip`, `startswith`, `endswith`, `count`)
are re-implemented below over `List Char` with exactly the semantics of
the Python originals (in particular `strip` removes a *character set*
from both ends of the string, not a literal substring).  Python `dict`
(insertion ordered) is modelled as the ordered association structure
`Fields`; the numbers produced by `numpy.double` parsing are modelled as
exact rationals.
-/

set_option autoImplicit false

namespace Anritsu

/-- Python `needle in`-style character membership used by `strip`. -/
def inSet (cs : List Char) (c : Char) : Bool :=
  cs.contains c

/-- Python `s.startswith(p)`. -/
def pyStartsWith (s p : String) : Bool :=
  p.toList.isPrefixOf s.toList

/-- Python `s.endswith(p)`. -/
def pyEndsWith (s p : String) : Bool :=
  p.toList.reverse.isPrefixOf s.toList.reverse

/-- Python `s.count(c)` for a single-character needle. -/
def pyCountChar (s : String) (c : Char) : Nat :=
  s.toList.count c

/-- Python `s.split(sep)` for a single-character separator: split at every
occurrence, keeping empty parts, always returning at least one part. -/
def splitOnChar (c : Char) : List Char → List (List Char)
  | [] => [[]]
  | x :: xs =>
    match splitOnChar c xs with
    | [] => [[x]]
    | h :: t => if x = c then [] :: h :: t else (x :: h) :: t

/-- Python `s.strip(chars)`: remove every leading and trailing character
that occurs in `chars` (a character *set*, not a substring). -/
def pyStrip (s : List Char) (chars : List Char) : List Char :=
  ((s.dropWhile (inSet chars)).reverse.dropWhile (inSet chars)).reverse

/-- The input text split on newline characters, as in `data.split('\n')`. -/
def pyLines (data : String) : List String :=
  (splitOnChar '\n' data.toList).map (fun l => String.mk l)

mutual

/-- A value in the decoded tree: a scalar string or a nested mapping,
mirroring the Python `str`-or-`dict` values of `parseData`. -/
inductive Value : Type where
  | str : String → Value
  | dict : Fields → Value

/-- An insertion-ordered string-keyed mapping, mirroring Python `dict`. -/
inductive Fields : Type where
  | nil : Fields
  | cons : String → Value → Fields → Fields

end

/-- Keys of a mapping, in insertion order (`list(d.keys())`). -/
def keysF : Fields → List String
  | .nil => []
  | .cons k _ rest => k :: keysF rest

/-- Values of a mapping, in insertion order (`d.values()`). -/
def valsF : Fields → List Value
  | .nil => []
  | .cons _ v rest => v :: valsF rest

/-- Entry list of a mapping, in insertion order (`d.items()`). -/
def toListF : Fields → List (String × Value)
  | .nil => []
  | .cons k v rest => (k, v) :: toListF rest

/-- Python `k in d`. -/
def hasKey : Fields → String → Bool
  | .nil, _ => false
  | .cons k0 _ rest, k => if k0 = k then true else hasKey rest k

/-- Python `d[k]` as an optional lookup. -/
def getVal : Fields → String → Option Value
  | .nil, _ => none
  | .cons k0 v0 rest, k => if k0 = k then some v0 else getVal rest k

/-- Python `d[k] = v`: replace in place if the key exists (its position is
preserved), otherwise append the new entry at the end. -/
def setKey : Fields → String → Value → Fields
  | .nil, k, v => .cons k v .nil
  | .cons k0 v0 rest, k, v =>
    if k0 = k then .cons k0 v rest else .cons k0 v0 (setKey rest k v)

/-- Python `list(d.keys())[-1]` together with its value: the
most-recently-inserted entry, if any. -/
def lastEntry : Fields → Option (String × Value)
  | .nil => none
  | .cons k v rest =>
    match lastEntry rest with
    | none => some (k, v)
    | some p => some p

/-- Errors raised while decoding.  `nestingError` is the `IndexError` from
`list(result.keys())[-1]` on an empty dict (a nested write with no parent
key yet); `indexError` is the out-of-bounds look-ahead `data[i+1]`;
`typeError` is the failure from recursing into a scalar value. -/
inductive DecodeErr : Type where
  | nestingError : DecodeErr
  | indexError : DecodeErr
  | typeError : DecodeErr
deriving DecidableEq

/-- The inner `append` helper of `parseData`: write `key -> value` into the
mapping at nesting depth `level`, descending through the value of the
most-recently-inserted key at each intermediate depth.  (The Python
`level < 0` check cannot fire: the level is a natural number.) -/
def append : Fields → String → Value → Nat → Except DecodeErr Fields
  | r, k, v, 0 => .ok (setKey r k v)
  | r, k, v, n + 1 =>
    match lastEntry r with
    | none => .error .nestingError
    | some (_, .str _) => .error .typeError
    | some (lk, .dict d) =>
      match append d k v n with
      | .error e => .error e
      | .ok d2 => .ok (setKey r lk (.dict d2))

/-- The section key of a header line:
`line.strip("# ").strip("Begin ")` with Python character-set `strip`. -/
def headerKey (line : String) : String :=
  String.mk (pyStrip (pyStrip line.toList ("# ".toList)) ("Begin ".toList))

/-- The scanning loop of `parseData` over the list of remaining lines,
carrying the partial result and the current nesting level.  The Boolean
records that the preceding header consumed the current first line as an
annotation (`i += 1` inside the header branch): when it is `true` the
first line is dropped without effect and scanning resumes normally, which
is exactly the Python advance of the index past the `<...>` line.  The
Python look-ahead guard `i != len(data)` is always true inside the loop,
so a header line at the last index makes `data[i+1]` raise `IndexError`:
that is the `rest.head? = none` case of the header branch. -/
def parseLines : List String → Bool → Fields → Nat → Except DecodeErr Fields
  | [], _, r, _ => .ok r
  | _ :: rest, true, r, lvl => parseLines rest false r lvl
  | line :: rest, false, r, lvl =>
    if pyStartsWith line "# " && pyEndsWith line "Done" then
      parseLines rest false r (max (lvl - 1) 1)
    else if pyStartsWith line "# " then
      match rest.head? with
      | none => .error .indexError
      | some next =>
        if pyStartsWith next "<" && pyEndsWith next ">" then
          match append r (headerKey line) (.dict .nil) 0 with
          | .error e => .error e
          | .ok r2 => parseLines rest true r2 1
        else
          match append r (headerKey line) (.dict .nil) lvl with
          | .error e => .error e
          | .ok r2 => parseLines rest false r2 (lvl + 1)
    else if pyCountChar line '=' = 1 then
      match splitOnChar '=' line.toList with
      | [k, v] =>
        match append r (String.mk k) (.str (String.mk v)) lvl with
        | .error e => .error e
        | .ok r2 => parseLines rest false r2 lvl
      | _ => parseLines rest false r lvl
    else parseLines rest false r lvl

/-- Cleanup pass of `parseData`: delete every top-level key whose value is
an empty mapping (`v == {}` is true in Python only for an empty dict). -/
def pruneStep : Fields → Fields
  | .nil => .nil
  | .cons k v rest =>
    match v with
    | .dict .nil => pruneStep rest
    | _ => .cons k v (pruneStep rest)

/-- Top-level entries whose value is a scalar string, in order
(the `tmp_dict` of `parseData`). -/
def strEntries : Fields → Fields
  | .nil => .nil
  | .cons k v rest =>
    match v with
    | .str _ => .cons k v (strEntries rest)
    | .dict _ => strEntries rest

/-- Top-level entries whose value is a mapping, in order (what remains at
the top level after the scalar entries are deleted). -/
def dictEntries : Fields → Fields
  | .nil => .nil
  | .cons k v rest =>
    match v with
    | .dict _ => .cons k v (dictEntries rest)
    | .str _ => dictEntries rest

/-- One step of the final dict comprehension
`{k: result[k] for k in desired_key_order}`: look the key up in `r2` and
assign it — a repeated key keeps its first position and is overwritten in
place.  (Every key of the rebuilt order is present in `r2`, so the `none`
branch is unreachable.) -/
def rebuildStep (r2 : Fields) (acc : Fields) (k : String) : Fields :=
  match getVal r2 k with
  | some v => setKey acc k v
  | none => acc

/-- Metadata pass of `parseData`: move the top-level scalar entries into a
`METADATA` sub-map (`result["METADATA"] = tmp_dict`), then rebuild the
mapping in the order `["METADATA"] + list(result.keys())[:-1]`. -/
def metaStep (r : Fields) : Fields :=
  let scal := strEntries r
  let r1 := dictEntries r
  let r2 := setKey r1 "METADATA" (.dict scal)
  let desired := "METADATA" :: (keysF r2).dropLast
  desired.foldl (rebuildStep r2) Fields.nil

/-- The full `parseData` of the source: split into lines, scan, prune empty
top-level sections, compress scalars into `METADATA` and put it first. -/
def parseData (data : String) : Except DecodeErr Fields :=
  match parseLines (pyLines data) false Fields.nil 0 with
  | .error e => .error e
  | .ok r => .ok (metaStep (pruneStep r))

/-- The `ascii_int` test of `parseSpectrum`: `48 <= ord(c) <= 57`. -/
def asciiInt (c : Char) : Bool :=
  decide (48 ≤ c.toNat) && decide (c.toNat ≤ 57)

/-- The `p_int` test of `parseSpectrum`: the key starts with `"P_"` and
every character after the first two is a decimal digit. -/
def pInt (s : String) : Bool :=
  pyStartsWith s "P_" && (s.toList.drop 2).all asciiInt

/-- Does some value of the mapping hold a nested mapping?  Mirrors the
reversed scan of `search` finding a `dict`-valued key. -/
def hasDictF : Fields → Bool
  | .nil => false
  | .cons _ (.dict _) rest => true || hasDictF rest
  | .cons _ (.str _) rest => hasDictF rest

/-- The hit test of `search`: `all(map(p_int, keys)) and len(keys) > 0`. -/
def hitF (f : Fields) : Bool :=
  (keysF f).all pInt && decide (0 < (keysF f).length)

/-- The reversed-key loop of `search`: `for k in reversed(keys)` returns
`search(nested_dict[k])` for the *first* `dict`-valued key in reversed
order (the last-inserted one), unconditionally — there is no backtracking
to earlier siblings.  When a later entry holds a mapping the loop settles
there, so the scan of the current entry only matters when no later entry
holds a mapping. -/
def revScan : Fields → Option (List Value)
  | .nil => none
  | .cons _ v rest =>
    if hasDictF rest then revScan rest
    else
      match v with
      | .dict d => if hitF d then some (valsF d) else revScan d
      | .str _ => none

/-- The recursive `search` of `parseSpectrum`: if every key of the mapping
has the form `P_<digits>` (and there is at least one key), return its
values in stored order; otherwise descend as the reversed-key loop does. -/
def search (f : Fields) : Option (List Value) :=
  if hitF f then some (valsF f) else revScan f

/-- Python `s.split(" , ")`: split at every occurrence of the literal
three-character separator, scanning left to right. -/
def splitCommaSep : List Char → List (List Char)
  | [] => [[]]
  | ' ' :: ',' :: ' ' :: rest =>
    match splitCommaSep rest with
    | [] => [[]]
    | parts => [] :: parts
  | c :: rest =>
    match splitCommaSep rest with
    | [] => [[c]]
    | h :: t => (c :: h) :: t

/-- Python `s.split(" ")` with an explicit separator. -/
def splitSpace : List Char → List (List Char)
  | [] => [[]]
  | ' ' :: rest =>
    match splitSpace rest with
    | [] => [[]]
    | parts => [] :: parts
  | c :: rest =>
    match splitSpace rest with
    | [] => [[c]]
    | h :: t => (c :: h) :: t

/-- The `get_y` helper: `dict_values.split(" , ")[0]`. -/
def getY (s : String) : String :=
  String.mk ((splitCommaSep s.toList).headD [])

/-- The `get_x` helper: `dict_values.split(" , ")[1].split(" ")[0]`
(strips the unit token); `none` models the `IndexError` raised when the
value has no `" , "` separator. -/
def getX (s : String) : Option String :=
  match splitCommaSep s.toList with
  | _ :: second :: _ => some (String.mk ((splitSpace second).headD []))
  | _ => none

/-- Value of a digit string, most significant first; `none` on a
non-digit; the empty string contributes zero to `parseDec`. -/
def digitsVal : List Char → Option Nat
  | [] => some 0
  | c :: cs =>
    if asciiInt c then
      (digitsVal cs).map (fun n => (c.toNat - 48) * 10 ^ cs.length + n)
    else none

/-- Parsing of a decimal token into an exact rational, modelling the
`numpy.double` conversion applied to each extracted token (an optional
sign, an integer part, an optional fractional part).  The value of
`s d.f` is the exact rational `s * (d*10^|f| + f) / 10^|f|`. -/
def parseDec (l : List Char) : Option ℚ :=
  let signed : Int × List Char :=
    match l with
    | '-' :: t => (-1, t)
    | '+' :: t => (1, t)
    | _ => (1, l)
  match splitOnChar '.' signed.2 with
  | [ds] =>
    if ds.isEmpty then none
    else (digitsVal ds).map (fun n => ((signed.1 * n : Int) : ℚ))
  | [ds, fs] =>
    if ds.isEmpty && fs.isEmpty then none
    else
      match digitsVal ds, digitsVal fs with
      | some a, some b =>
        some (((signed.1 * (a * 10 ^ fs.length + b) : Int) : ℚ) /
          ((10 ^ fs.length : Nat) : ℚ))
      | _, _ => none
  | _ => none

/-- Outcome of `parseSpectrum`: the x (frequency) and y (power) sequences,
the `ValueError("Spectrum could not be found!")`, or a failure while
splitting or parsing the values of a matched node. -/
inductive ExtractOut : Type where
  | found : List ℚ → List ℚ → ExtractOut
  | spectrumNotFound : ExtractOut
  | otherError : ExtractOut
deriving DecidableEq

/-- Array construction of `parseSpectrum` on the values of a matched node:
every value must be a scalar; `x` from `get_x` then double-parsing, `y`
from `get_y` then double-parsing. -/
def buildXY (vals : List Value) : Option (List ℚ × List ℚ) := do
  let strs ← vals.mapM (fun v =>
    match v with
    | .str s => some s
    | .dict _ => none)
  let xtoks ← strs.mapM getX
  let xs ← xtoks.mapM (fun t => parseDec t.toList)
  let ys ← strs.mapM (fun s => parseDec (getY s).toList)
  pure (xs, ys)

/-- The full `parseSpectrum` of the source: search the tree; `None` means
the spectrum was not found (`ValueError`), a matched node yields the
stacked (x, y) series. -/
def parseSpectrum (f : Fields) : ExtractOut :=
  match search f with
  | none => .spectrumNotFound
  | some vals =>
    match buildXY vals with
    | some (x, y) => .found x y
    | none => .otherError

/-- Appending a fresh entry at the end of a mapping; `setKey` coincides
with this when the key is not yet present. -/
def snocF : Fields → String → Value → Fields
  | .nil, k, v => .cons k v .nil
  | .cons k0 v0 rest, k, v => .cons k0 v0 (snocF rest k v)

/-- Concatenation of two mappings, used to state how the metadata pass
rebuilds the record. -/
def appF : Fields → Fields → Fields
  | .nil, s => s
  | .cons k v rest, s => .cons k v (appF rest s)

/-- The nested-section example of the specification (Example 2). -/
def c1text : String :=
  "Model=MS2723B\n# Begin Trace\nP_0=-42.1 , 100.0 MHz\nP_1=-40.3 , 100.1 MHz\n# Trace Done\n"

/-- The trace node actually produced when decoding `c1text`. -/
def c1sub : Fields :=
  .cons "P_0" (.str "-42.1 , 100.0 MHz")
    (.cons "P_1" (.str "-40.3 , 100.1 MHz") .nil)

/-- The record actually produced when decoding `c1text`: the section key
is `"Trac"`, not `"Trace"`. -/
def c1rec : Fields :=
  .cons "METADATA" (.dict (.cons "Model" (.str "MS2723B") .nil))
    (.cons "Trac" (.dict c1sub) .nil)

/-- An input whose decoded record holds a spectrum node under its first
section `A` while the last-inserted section `Sub` holds none. -/
def c2text : String :=
  "# A\nP_0=-1.0 , 2.0 MHz\n# A Done\n# Sub\n<t>\nX=y\n"

/-- The spectrum node sitting under key `A` after decoding `c2text`. -/
def c2subA : Fields :=
  .cons "P_0" (.str "-1.0 , 2.0 MHz") .nil

/-- The record produced when decoding `c2text`. -/
def c2rec : Fields :=
  .cons "METADATA" (.dict .nil)
    (.cons "A" (.dict c2subA)
      (.cons "Sub" (.dict (.cons "X" (.str "y") .nil)) .nil))

/-- An input starting with a `Done` line (level becomes 1) followed by a
key/value line with no parent section (Example 3). -/
def c4text : String := "# X Done\na=b\n"

/-- An input whose first section is literally named `METADATA` and whose
second section `Sec` is opened at the root by the annotation rule. -/
def c5text : String := "# METADATA\nA=1\n# Sec\n<x>\nB=2\n"

/-- An input in which the nested section `Sub` receives no key/value line
before the same-level header `Tail`, and so stays an empty mapping at
depth one. -/
def c6text : String :=
  "# A\nx=1\n# Sub\n# Sub Done\n# Tail\ny=2\n# Tail Done\n# A Done\n"

/-- The metadata-only example of the specification (Example 1). -/
def c8text : String := "Model=MS2723B\nFreq=Unknown\n"

/-- The record produced when decoding `c8text`. -/
def c8rec : Fields :=
  .cons "METADATA"
    (.dict (.cons "Model" (.str "MS2723B")
      (.cons "Freq" (.str "Unknown") .nil))) .nil

/-- An input whose final line (no trailing newline) is a header, but in
which an earlier line already fails with a nested write into an empty
record. -/
def c9text : String := "# X Done\na=b\n# Y"

/-- Induction over the top-level spine of a mapping (the nested values
are untouched), used by the structural lemmas below. -/
theorem fieldsInd {motive : Fields → Prop} (hnil : motive .nil)
    (hcons : ∀ (k : String) (v : Value) (rest : Fields),
      motive rest → motive (.cons k v rest)) : ∀ f, motive f
  | .nil => hnil
  | .cons k v rest => hcons k v rest (fieldsInd hnil hcons rest)

attribute [induction_eliminator] fieldsInd

/-- Key membership agrees with the key list. -/
theorem hasKey_iff_mem (r : Fields) (k : String) :
    hasKey r k = true ↔ k ∈ keysF r := by
  induction r with
  | hnil => simp [hasKey, keysF]
  | hcons k0 v0 rest ih =>
    by_cases h : k0 = k
    · subst h; simp [hasKey, keysF]
    · simp [hasKey, keysF, h, ih, Ne.symm h]

/-- Updating an existing key leaves the key list unchanged; a fresh key
is appended at the end. -/
theorem keysF_setKey (r : Fields) (k : String) (v : Value) :
    keysF (setKey r k v) =
      if hasKey r k = true then keysF r else keysF r ++ [k] := by
  induction r with
  | hnil => simp [setKey, hasKey, keysF]
  | hcons k0 v0 rest ih =>
    by_cases h : k0 = k
    · subst h; simp [setKey, hasKey, keysF]
    · simp [setKey, hasKey, keysF, h, ih]
      by_cases h2 : hasKey rest k = true <;> simp [h2]

/-- On a fresh key, `setKey` is exactly the append at the end. -/
theorem setKey_eq_snoc (r : Fields) (k : String) (v : Value)
    (h : hasKey r k = false) : setKey r k v = snocF r k v := by
  induction r with
  | hnil => rfl
  | hcons k0 v0 rest ih =>
    simp [hasKey] at h
    simp [setKey, snocF, h.1, ih h.2]

/-- Key list of an append at the end. -/
theorem keysF_snoc (r : Fields) (k : String) (v : Value) :
    keysF (snocF r k v) = keysF r ++ [k] := by
  induction r with
  | hnil => rfl
  | hcons k0 v0 rest ih => simp [snocF, keysF, ih]

/-- Looking up the key just written. -/
theorem getVal_setKey_self (r : Fields) (k : String) (v : Value) :
    getVal (setKey r k v) k = some v := by
  induction r with
  | hnil => simp [setKey, getVal]
  | hcons k0 v0 rest ih =>
    by_cases h : k0 = k
    · subst h; simp [setKey, getVal]
    · simp [setKey, getVal, h, ih]

/-- Writing one key does not change any other lookup. -/
theorem getVal_setKey_ne (r : Fields) (k k2 : String) (v : Value)
    (h : k2 ≠ k) : getVal (setKey r k v) k2 = getVal r k2 := by
  induction r with
  | hnil => simp [setKey, getVal, Ne.symm h]
  | hcons k0 v0 rest ih =>
    by_cases h0 : k0 = k
    · subst h0; simp [setKey, getVal, Ne.symm h]
    · by_cases h2 : k0 = k2 <;> simp [setKey, getVal, h0, h2, h, ih]

/-- Appending a fresh entry does not change the lookup of present keys. -/
theorem getVal_snoc_of_has (r : Fields) (k k2 : String) (v : Value)
    (h : hasKey r k2 = true) : getVal (snocF r k v) k2 = getVal r k2 := by
  induction r with
  | hnil => simp [hasKey] at h
  | hcons k0 v0 rest ih =>
    by_cases h0 : k0 = k2
    · subst h0; simp [snocF, getVal]
    · simp [hasKey, h0] at h
      simp [snocF, getVal, h0, ih h]

/-- Looking up the key of a freshly appended entry. -/
theorem getVal_snoc_self (r : Fields) (k : String) (v : Value)
    (h : hasKey r k = false) : getVal (snocF r k v) k = some v := by
  induction r with
  | hnil => simp [snocF, getVal]
  | hcons k0 v0 rest ih =>
    simp [hasKey] at h
    simp [snocF, getVal, h.1, ih h.2]

/-- A successful lookup is a stored entry. -/
theorem getVal_mem (r : Fields) (k : String) (v : Value)
    (h : getVal r k = some v) : (k, v) ∈ toListF r := by
  induction r with
  | hnil => simp [getVal] at h
  | hcons k0 v0 rest ih =>
    by_cases h0 : k0 = k
    · subst h0
      simp [getVal] at h
      subst h
      simp [toListF]
    · simp [getVal, h0] at h
      simp [toListF, ih h]

/-- The key of a stored entry is in the key list. -/
theorem mem_keysF_of_mem (r : Fields) (k : String) (v : Value)
    (h : (k, v) ∈ toListF r) : k ∈ keysF r := by
  induction r with
  | hnil => simp [toListF] at h
  | hcons k0 v0 rest ih =>
    simp only [toListF, List.mem_cons, Prod.mk.injEq] at h
    rcases h with h | h
    · simp [keysF, h.1]
    · simp [keysF, ih h]

/-- With distinct keys, a stored entry is recovered by lookup. -/
theorem getVal_eq_of_mem (r : Fields) (k : String) (v : Value)
    (hnd : (keysF r).Nodup) (h : (k, v) ∈ toListF r) :
    getVal r k = some v := by
  induction r with
  | hnil => simp [toListF] at h
  | hcons k0 v0 rest ih =>
    simp only [keysF, List.nodup_cons] at hnd
    simp only [toListF, List.mem_cons] at h
    rcases h with h | h
    · obtain ⟨h1, h2⟩ := Prod.ext_iff.mp h
      simp only at h1 h2
      subst h1; subst h2
      simp [getVal]
    · have hk : k ∈ keysF rest := mem_keysF_of_mem rest k v h
      have h0 : k0 ≠ k := fun he => hnd.1 (he ▸ hk)
      simp [getVal, h0, ih hnd.2 h]

/-- Concatenating the empty mapping on the right. -/
theorem appF_nil (r : Fields) : appF r .nil = r := by
  induction r with
  | hnil => rfl
  | hcons k v rest ih => simp [appF, ih]

/-- Moving a freshly appended entry across a concatenation. -/
theorem appF_snoc (r t : Fields) (k : String) (v : Value) :
    appF (snocF r k v) t = appF r (.cons k v t) := by
  induction r with
  | hnil => rfl
  | hcons k0 v0 rest ih => simp [snocF, appF, ih]

/-- The most-recently-inserted key is a present key. -/
theorem lastEntry_hasKey (r : Fields) (k : String) (v : Value)
    (h : lastEntry r = some (k, v)) : hasKey r k = true := by
  induction r with
  | hnil => simp [lastEntry] at h
  | hcons k0 v0 rest ih =>
    simp only [lastEntry] at h
    cases hl : lastEntry rest with
    | none =>
      rw [hl] at h
      simp only [Option.some.injEq, Prod.mk.injEq] at h
      simp [hasKey, h.1]
    | some p =>
      rw [hl] at h
      simp only [Option.some.injEq] at h
      subst h
      by_cases h0 : k0 = k
      · simp [hasKey, h0]
      · simp [hasKey, h0, ih hl]

/-- Entries surviving the pruning pass are stored entries whose value is
not the empty mapping. -/
theorem pruneStep_mem (r : Fields) (k : String) (v : Value)
    (h : (k, v) ∈ toListF (pruneStep r)) :
    (k, v) ∈ toListF r ∧ v ≠ .dict .nil := by
  induction r with
  | hnil => simp [pruneStep, toListF] at h
  | hcons k0 v0 rest ih =>
    by_cases he : v0 = .dict .nil
    · subst he
      rw [show pruneStep (.cons k0 (.dict .nil) rest) = pruneStep rest from rfl] at h
      have h2 := ih h
      exact ⟨List.mem_cons_of_mem _ h2.1, h2.2⟩
    · have hp : pruneStep (.cons k0 v0 rest) = .cons k0 v0 (pruneStep rest) := by
        cases v0 with
        | str s => rfl
        | dict d =>
          cases d with
          | nil => exact absurd rfl he
          | cons a b c => rfl
      rw [hp] at h
      simp only [toListF, List.mem_cons, Prod.mk.injEq] at h
      rcases h with h | h
      · obtain ⟨rfl, rfl⟩ := h
        exact ⟨by simp [toListF], he⟩
      · have h2 := ih h
        exact ⟨List.mem_cons_of_mem _ h2.1, h2.2⟩

/-- Entries of the mapping-valued selection are stored entries holding a
nested mapping. -/
theorem dictEntries_mem (r : Fields) (k : String) (v : Value)
    (h : (k, v) ∈ toListF (dictEntries r)) :
    (k, v) ∈ toListF r ∧ ∃ d, v = .dict d := by
  induction r with
  | hnil => simp [dictEntries, toListF] at h
  | hcons k0 v0 rest ih =>
    cases v0 with
    | str s =>
      rw [show dictEntries (.cons k0 (.str s) rest) = dictEntries rest from rfl] at h
      have h2 := ih h
      exact ⟨List.mem_cons_of_mem _ h2.1, h2.2⟩
    | dict d =>
      rw [show dictEntries (.cons k0 (.dict d) rest) =
          .cons k0 (.dict d) (dictEntries rest) from rfl] at h
      simp only [toListF, List.mem_cons, Prod.mk.injEq] at h
      rcases h with h | h
      · obtain ⟨rfl, rfl⟩ := h
        exact ⟨by simp [toListF], d, rfl⟩
      · have h2 := ih h
        exact ⟨List.mem_cons_of_mem _ h2.1, h2.2⟩

/-- Pruning keeps a sub-sequence of the keys. -/
theorem keysF_pruneStep_sublist (r : Fields) :
    List.Sublist (keysF (pruneStep r)) (keysF r) := by
  induction r with
  | hnil => simp [pruneStep, keysF]
  | hcons k0 v0 rest ih =>
    cases v0 with
    | str s => exact List.Sublist.cons₂ _ ih
    | dict d =>
      cases d with
      | nil => exact List.Sublist.cons _ ih
      | cons a b c => exact List.Sublist.cons₂ _ ih

/-- The mapping-valued selection keeps a sub-sequence of the keys. -/
theorem keysF_dictEntries_sublist (r : Fields) :
    List.Sublist (keysF (dictEntries r)) (keysF r) := by
  induction r with
  | hnil => simp [dictEntries, keysF]
  | hcons k0 v0 rest ih =>
    cases v0 with
    | str s => exact List.Sublist.cons _ ih
    | dict d => exact List.Sublist.cons₂ _ ih

/-- Folding the rebuild step over the keys of a mapping with distinct
keys — all absent from the accumulator and all looked up correctly —
appends that mapping entry by entry. -/
theorem foldRebuild (r2 : Fields) (t : Fields) :
    ∀ (acc : Fields),
      (∀ (k : String) (v : Value), (k, v) ∈ toListF t → getVal r2 k = some v) →
      (keysF t).Nodup →
      (∀ k, k ∈ keysF t → hasKey acc k = false) →
      (keysF t).foldl (rebuildStep r2) acc = appF acc t := by
  induction t with
  | hnil =>
    intro acc _ _ _
    simp [keysF, appF_nil]
  | hcons k0 v0 rest ih =>
    intro acc h1 h2 h3
    have hv : getVal r2 k0 = some v0 := h1 k0 v0 (by simp [toListF])
    have hacc : hasKey acc k0 = false := h3 k0 (by simp [keysF])
    have hstep : rebuildStep r2 acc k0 = snocF acc k0 v0 := by
      simp [rebuildStep, hv, setKey_eq_snoc _ _ _ hacc]
    simp only [keysF, List.foldl_cons, hstep]
    simp only [keysF, List.nodup_cons] at h2
    have h1' : ∀ (k : String) (v : Value), (k, v) ∈ toListF rest → getVal r2 k = some v :=
      fun k v hm => h1 k v (by simp [toListF, hm])
    have h3' : ∀ k, k ∈ keysF rest → hasKey (snocF acc k0 v0) k = false := by
      intro k hk
      have hne : k ≠ k0 := fun he => h2.1 (he ▸ hk)
      cases hb : hasKey (snocF acc k0 v0) k with
      | false => rfl
      | true =>
        exfalso
        have hm := (hasKey_iff_mem _ _).mp hb
        rw [keysF_snoc] at hm
        rcases List.mem_append.mp hm with hm | hm
        · have := (hasKey_iff_mem acc k).mpr hm
          rw [h3 k (by simp [keysF, hk])] at this
          exact Bool.false_ne_true this
        · exact hne (List.mem_singleton.mp hm)
    rw [ih (snocF acc k0 v0) h1' h2.2 h3']
    exact appF_snoc acc rest k0 v0

/-- Folding the rebuild step never disturbs a `METADATA` head entry whose
value agrees with the lookup. -/
theorem fold_head (r2 : Fields) (w : Value)
    (hw : getVal r2 "METADATA" = some w) :
    ∀ (ks : List String) (t : Fields),
      ∃ t2, ks.foldl (rebuildStep r2) (.cons "METADATA" w t) =
        Fields.cons "METADATA" w t2 := by
  intro ks
  induction ks with
  | nil => intro t; exact ⟨t, rfl⟩
  | cons a ks ih =>
    intro t
    simp only [List.foldl_cons]
    by_cases ha : "METADATA" = a
    · subst ha
      have hs : rebuildStep r2 (.cons "METADATA" w t) "METADATA" =
          .cons "METADATA" w t := by
        simp [rebuildStep, hw, setKey]
      rw [hs]
      exact ih t
    · cases hg : getVal r2 a with
      | none =>
        rw [show rebuildStep r2 (.cons "METADATA" w t) a = .cons "METADATA" w t from by
          simp [rebuildStep, hg]]
        exact ih t
      | some u =>
        rw [show rebuildStep r2 (.cons "METADATA" w t) a =
            .cons "METADATA" w (setKey t a u) from by
          simp [rebuildStep, hg, setKey, ha]]
        exact ih (setKey t a u)

/-- An entry of an updated mapping is an old entry or the written pair. -/
theorem mem_setKey (r : Fields) (k2 : String) (v2 : Value) (k : String) (v : Value)
    (h : (k, v) ∈ toListF (setKey r k2 v2)) :
    (k, v) ∈ toListF r ∨ (k = k2 ∧ v = v2) := by
  induction r with
  | hnil =>
    simp only [setKey, toListF, List.mem_cons, List.not_mem_nil, or_false,
      Prod.mk.injEq] at h
    exact Or.inr h
  | hcons k0 v0 rest ih =>
    by_cases h0 : k0 = k2
    · subst h0
      rw [show setKey (.cons k0 v0 rest) k0 v2 = .cons k0 v2 rest from by
        simp [setKey]] at h
      simp only [toListF, List.mem_cons, Prod.mk.injEq] at h ⊢
      rcases h with h | h
      · exact Or.inr h
      · exact Or.inl (Or.inr h)
    · rw [show setKey (.cons k0 v0 rest) k2 v2 = .cons k0 v0 (setKey rest k2 v2) from by
        simp [setKey, h0]] at h
      simp only [toListF, List.mem_cons] at h ⊢
      rcases h with h | h
      · exact Or.inl (Or.inl h)
      · rcases ih h with h | h
        · exact Or.inl (Or.inr h)
        · exact Or.inr h

/-- Every entry of the rebuilt mapping is an accumulator entry or agrees
with the lookup into `r2`. -/
theorem mem_fold (r2 : Fields) (ks : List String) :
    ∀ (acc : Fields) (k : String) (v : Value),
      (k, v) ∈ toListF (ks.foldl (rebuildStep r2) acc) →
      (k, v) ∈ toListF acc ∨ getVal r2 k = some v := by
  induction ks with
  | nil => intro acc k v h; exact Or.inl h
  | cons a ks ih =>
    intro acc k v h
    simp only [List.foldl_cons] at h
    cases hg : getVal r2 a with
    | none =>
      rw [show rebuildStep r2 acc a = acc from by simp [rebuildStep, hg]] at h
      exact ih acc k v h
    | some u =>
      rw [show rebuildStep r2 acc a = setKey acc a u from by
        simp [rebuildStep, hg]] at h
      rcases ih _ k v h with h2 | h2
      · rcases mem_setKey acc a u k v h2 with h3 | h3
        · exact Or.inl h3
        · right
          rw [h3.1, h3.2]
          exact hg
      · exact Or.inr h2

/-- When the incoming record has distinct keys, none of them `METADATA`,
the metadata pass produces exactly `METADATA` (holding the scalar
entries) followed by the mapping-valued entries in their prior order. -/
theorem metaStep_eq (s : Fields) (hnd : (keysF s).Nodup)
    (hm : hasKey s "METADATA" = false) :
    metaStep s = .cons "METADATA" (.dict (strEntries s)) (dictEntries s) := by
  have hnd1 : (keysF (dictEntries s)).Nodup := hnd.sublist (keysF_dictEntries_sublist s)
  have hm1 : hasKey (dictEntries s) "METADATA" = false := by
    cases hb : hasKey (dictEntries s) "METADATA" with
    | false => rfl
    | true =>
      exfalso
      have := (keysF_dictEntries_sublist s).subset ((hasKey_iff_mem _ _).mp hb)
      rw [(hasKey_iff_mem s "METADATA").mpr this] at hm
      exact Bool.noConfusion hm
  have hsnoc : setKey (dictEntries s) "METADATA" (.dict (strEntries s)) =
      snocF (dictEntries s) "METADATA" (.dict (strEntries s)) :=
    setKey_eq_snoc _ _ _ hm1
  have hw : getVal (snocF (dictEntries s) "METADATA" (.dict (strEntries s)))
      "METADATA" = some (.dict (strEntries s)) := by
    rw [← hsnoc]
    exact getVal_setKey_self _ _ _
  simp only [metaStep]
  rw [hsnoc, keysF_snoc, List.dropLast_concat, List.foldl_cons]
  rw [show rebuildStep (snocF (dictEntries s) "METADATA" (.dict (strEntries s)))
      Fields.nil "METADATA" = .cons "METADATA" (.dict (strEntries s)) .nil from by
    simp [rebuildStep, hw, setKey]]
  rw [foldRebuild _ (dictEntries s) _ ?h1 hnd1 ?h3]
  · simp [appF]
  case h1 =>
    intro k v hmem
    have hk : k ∈ keysF (dictEntries s) := mem_keysF_of_mem _ _ _ hmem
    have hne : k ≠ "METADATA" := by
      intro he
      rw [(hasKey_iff_mem _ _).mpr (he ▸ hk)] at hm1
      exact Bool.noConfusion hm1
    rw [← hsnoc, getVal_setKey_ne _ _ _ _ hne]
    exact getVal_eq_of_mem _ _ _ hnd1 hmem
  case h3 =>
    intro k hk
    have hne : k ≠ "METADATA" := by
      intro he
      rw [(hasKey_iff_mem _ _).mpr (he ▸ hk)] at hm1
      exact Bool.noConfusion hm1
    simp [hasKey, Ne.symm hne]

/-- The metadata pass always yields a record headed by `METADATA` holding
the scalar entries. -/
theorem metaStep_head (s : Fields) :
    ∃ t, metaStep s = .cons "METADATA" (.dict (strEntries s)) t := by
  have hw : getVal (setKey (dictEntries s) "METADATA" (.dict (strEntries s)))
      "METADATA" = some (.dict (strEntries s)) := getVal_setKey_self _ _ _
  simp only [metaStep]
  rw [List.foldl_cons]
  rw [show rebuildStep (setKey (dictEntries s) "METADATA" (.dict (strEntries s)))
      Fields.nil "METADATA" = .cons "METADATA" (.dict (strEntries s)) .nil from by
    simp [rebuildStep, hw, setKey]]
  exact fold_head _ _ hw _ _

/-- Every non-`METADATA` entry of the metadata pass output is a stored
mapping-valued entry of the incoming record. -/
theorem metaStep_mem (s : Fields) (k : String) (v : Value)
    (h : (k, v) ∈ toListF (metaStep s)) (hk : k ≠ "METADATA") :
    (k, v) ∈ toListF s ∧ ∃ d, v = .dict d := by
  simp only [metaStep] at h
  rcases mem_fold _ _ _ _ _ h with h2 | h2
  · simp [toListF] at h2
  · have h3 : getVal (dictEntries s) k = some v := by
      rw [← getVal_setKey_ne (dictEntries s) "METADATA" k (.dict (strEntries s)) hk]
      exact h2
    exact dictEntries_mem s k v (getVal_mem _ _ _ h3)

/-- A successful nested write keeps the top-level key list, except that a
level-0 write of a fresh key appends it. -/
theorem append_keysF (r : Fields) (k : String) (v : Value) (n : Nat) (r2 : Fields)
    (h : append r k v n = .ok r2) :
    keysF r2 = keysF r ∨ (hasKey r k = false ∧ keysF r2 = keysF r ++ [k]) := by
  cases n with
  | zero =>
    simp only [append, Except.ok.injEq] at h
    subst h
    cases hk : hasKey r k with
    | true =>
      left
      rw [keysF_setKey]
      simp [hk]
    | false =>
      right
      refine ⟨rfl, ?_⟩
      rw [keysF_setKey]
      simp [hk]
  | succ m =>
    simp only [append] at h
    cases hl : lastEntry r with
    | none =>
      rw [hl] at h
      simp at h
    | some p =>
      obtain ⟨lk, lv⟩ := p
      rw [hl] at h
      cases lv with
      | str s => simp at h
      | dict d =>
        simp only at h
        cases ha : append d k v m with
        | error e =>
          rw [ha] at h
          simp at h
        | ok d2 =>
          rw [ha] at h
          simp only [Except.ok.injEq] at h
          subst h
          left
          rw [keysF_setKey]
          simp [lastEntry_hasKey r lk (.dict d) hl]

/-- A successful nested write preserves distinctness of the top-level
keys. -/
theorem append_nodup (r : Fields) (k : String) (v : Value) (n : Nat) (r2 : Fields)
    (hnd : (keysF r).Nodup) (h : append r k v n = .ok r2) :
    (keysF r2).Nodup := by
  rcases append_keysF r k v n r2 h with h2 | ⟨hf, h2⟩
  · exact h2 ▸ hnd
  · rw [h2]
    have hk : k ∉ keysF r := fun hm => by
      rw [(hasKey_iff_mem r k).mpr hm] at hf
      exact Bool.noConfusion hf
    simp [List.nodup_append, hnd, hk]

/-- The scanning loop preserves distinctness of the top-level keys: every
write goes through `append`. -/
theorem parseLines_nodup (n : Nat) :
    ∀ (ls : List String) (b : Bool) (r : Fields) (lvl : Nat) (r2 : Fields),
      ls.length ≤ n → (keysF r).Nodup → parseLines ls b r lvl = .ok r2 →
      (keysF r2).Nodup := by
  induction n with
  | zero =>
    intro ls b r lvl r2 hlen hnd h
    obtain rfl : ls = [] := List.length_eq_zero.mp (Nat.le_zero.mp hlen)
    simp only [parseLines, Except.ok.injEq] at h
    exact h ▸ hnd
  | succ n ih =>
    intro ls b r lvl r2 hlen hnd h
    cases ls with
    | nil =>
      simp only [parseLines, Except.ok.injEq] at h
      exact h ▸ hnd
    | cons line rest =>
      have hlen2 : rest.length ≤ n := Nat.le_of_succ_le_succ (by simpa using hlen)
      cases b with
      | true => exact ih rest false r lvl r2 hlen2 hnd (by simpa [parseLines] using h)
      | false =>
        by_cases hd : (pyStartsWith line "# " && pyEndsWith line "Done") = true
        · rw [show parseLines (line :: rest) false r lvl =
              parseLines rest false r (max (lvl - 1) 1) from by
            simp [parseLines, hd]] at h
          exact ih rest false r _ r2 hlen2 hnd h
        · by_cases hh : pyStartsWith line "# " = true
          · have hdone : pyEndsWith line "Done" = false := by
              cases he : pyEndsWith line "Done" with
              | false => rfl
              | true => exact absurd (by simp [hh, he]) hd
            cases hn : rest.head? with
            | none =>
              rw [show parseLines (line :: rest) false r lvl = .error .indexError from by
                simp [parseLines, hh, hdone, hn]] at h
              simp at h
            | some next =>
              by_cases han : (pyStartsWith next "<" && pyEndsWith next ">") = true
              · cases hap : append r (headerKey line) (.dict .nil) 0 with
                | error e =>
                  rw [show parseLines (line :: rest) false r lvl = .error e from by
                    simp [parseLines, hh, hdone, hn, han, hap]] at h
                  simp at h
                | ok rr =>
                  rw [show parseLines (line :: rest) false r lvl =
                      parseLines rest true rr 1 from by
                    simp [parseLines, hh, hdone, hn, han, hap]] at h
                  exact ih rest true rr 1 r2 hlen2 (append_nodup _ _ _ _ _ hnd hap) h
              · cases hap : append r (headerKey line) (.dict .nil) lvl with
                | error e =>
                  rw [show parseLines (line :: rest) false r lvl = .error e from by
                    simp [parseLines, hh, hdone, hn, han, hap]] at h
                  simp at h
                | ok rr =>
                  rw [show parseLines (line :: rest) false r lvl =
                      parseLines rest false rr (lvl + 1) from by
                    simp [parseLines, hh, hdone, hn, han, hap]] at h
                  exact ih rest false rr (lvl + 1) r2 hlen2
                    (append_nodup _ _ _ _ _ hnd hap) h
          · by_cases hc : pyCountChar line '=' = 1
            · cases hsp : splitOnChar '=' line.data with
              | nil =>
                rw [show parseLines (line :: rest) false r lvl =
                    parseLines rest false r lvl from by
                  simp [parseLines, hd, hh, hc, hsp]] at h
                exact ih rest false r lvl r2 hlen2 hnd h
              | cons p1 t1 =>
                cases t1 with
                | nil =>
                  rw [show parseLines (line :: rest) false r lvl =
                      parseLines rest false r lvl from by
                    simp [parseLines, hd, hh, hc, hsp]] at h
                  exact ih rest false r lvl r2 hlen2 hnd h
                | cons p2 t2 =>
                  cases t2 with
                  | nil =>
                    cases hap : append r (String.mk p1) (.str (String.mk p2)) lvl with
                    | error e =>
                      rw [show parseLines (line :: rest) false r lvl = .error e from by
                        simp [parseLines, hd, hh, hc, hsp, hap]] at h
                      simp at h
                    | ok rr =>
                      rw [show parseLines (line :: rest) false r lvl =
                          parseLines rest false rr lvl from by
                        simp [parseLines, hd, hh, hc, hsp, hap]] at h
                      exact ih rest false rr lvl r2 hlen2
                        (append_nodup _ _ _ _ _ hnd hap) h
                  | cons p3 t3 =>
                    rw [show parseLines (line :: rest) false r lvl =
                        parseLines rest false r lvl from by
                      simp [parseLines, hd, hh, hc, hsp]] at h
                    exact ih rest false r lvl r2 hlen2 hnd h
            · rw [show parseLines (line :: rest) false r lvl =
                  parseLines rest false r lvl from by
                simp [parseLines, hd, hh, hc]] at h
              exact ih rest false r lvl r2 hlen2 hnd h

/-- No line starts with both `"# "` and `"<"`. -/
theorem startsWith_hash_ne_angle (s : String) (h1 : pyStartsWith s "# " = true)
    (h2 : pyStartsWith s "<" = true) : False := by
  unfold pyStartsWith at h1 h2
  rw [show ("# " : String).toList = ['#', ' '] from rfl] at h1
  rw [show ("<" : String).toList = ['<'] from rfl] at h2
  cases hs : s.toList with
  | nil =>
    rw [hs] at h1
    exact absurd h1 (by decide)
  | cons c cs =>
    rw [hs] at h1 h2
    simp [List.isPrefixOf] at h1 h2
    rw [← h2] at h1
    exact absurd h1.1 (by decide)

/-- When the last line of the remaining input is a header (starts with
`"# "`, does not end with `"Done"`), the scan never returns normally: it
fails at some line — at the latest at the final header itself, whose
look-ahead is out of bounds. -/
theorem parseLines_fails_of_last_header (n : Nat) :
    ∀ (ls : List String) (l : String), ls.length ≤ n →
      ls.getLast? = some l → pyStartsWith l "# " = true →
      pyEndsWith l "Done" = false →
      ∀ (r : Fields) (lvl : Nat), ∃ e, parseLines ls false r lvl = .error e := by
  induction n with
  | zero =>
    intro ls l hlen hlast h1 h2 r lvl
    obtain rfl : ls = [] := List.length_eq_zero.mp (Nat.le_zero.mp hlen)
    simp at hlast
  | succ n ih =>
    intro ls l hlen hlast h1 h2 r lvl
    cases ls with
    | nil => simp at hlast
    | cons a rest =>
      cases rest with
      | nil =>
        obtain rfl : a = l := by simpa using hlast
        exact ⟨.indexError, by simp [parseLines, h1, h2]⟩
      | cons b t =>
        rw [List.getLast?_cons_cons] at hlast
        have hlen2 : (b :: t).length ≤ n := Nat.le_of_succ_le_succ (by simpa using hlen)
        by_cases hd : (pyStartsWith a "# " && pyEndsWith a "Done") = true
        · obtain ⟨e, he⟩ := ih (b :: t) l hlen2 hlast h1 h2 r (max (lvl - 1) 1)
          refine ⟨e, ?_⟩
          rw [show parseLines (a :: b :: t) false r lvl =
              parseLines (b :: t) false r (max (lvl - 1) 1) from by
            simp [parseLines, hd]]
          exact he
        · by_cases hh : pyStartsWith a "# " = true
          · have hdone : pyEndsWith a "Done" = false := by
              cases he : pyEndsWith a "Done" with
              | false => rfl
              | true => exact absurd (by simp [hh, he]) hd
            by_cases han : (pyStartsWith b "<" && pyEndsWith b ">") = true
            · cases t with
              | nil =>
                exfalso
                obtain rfl : b = l := by simpa using hlast
                exact startsWith_hash_ne_angle b h1 (by
                  cases hb : pyStartsWith b "<" with
                  | true => rfl
                  | false => rw [hb] at han; simp at han)
              | cons c t2 =>
                rw [List.getLast?_cons_cons] at hlast
                have hlen3 : (c :: t2).length ≤ n := by
                  simp only [List.length_cons] at hlen ⊢
                  omega
                obtain ⟨e, he⟩ := ih (c :: t2) l hlen3 hlast h1 h2
                  (setKey r (headerKey a) (.dict .nil)) 1
                refine ⟨e, ?_⟩
                rw [show parseLines (a :: b :: c :: t2) false r lvl =
                    parseLines (c :: t2) false
                      (setKey r (headerKey a) (.dict .nil)) 1 from by
                  simp [parseLines, hh, hdone, han, append]]
                exact he
            · cases hap : append r (headerKey a) (.dict .nil) lvl with
              | error e => exact ⟨e, by simp [parseLines, hh, hdone, han, hap]⟩
              | ok rr =>
                obtain ⟨e, he⟩ := ih (b :: t) l hlen2 hlast h1 h2 rr (lvl + 1)
                refine ⟨e, ?_⟩
                rw [show parseLines (a :: b :: t) false r lvl =
                    parseLines (b :: t) false rr (lvl + 1) from by
                  simp [parseLines, hh, hdone, han, hap]]
                exact he
          · by_cases hc : pyCountChar a '=' = 1
            · cases hsp : splitOnChar '=' a.data with
              | nil =>
                obtain ⟨e, he⟩ := ih (b :: t) l hlen2 hlast h1 h2 r lvl
                refine ⟨e, ?_⟩
                rw [show parseLines (a :: b :: t) false r lvl =
                    parseLines (b :: t) false r lvl from by
                  simp [parseLines, hd, hh, hc, hsp]]
                exact he
              | cons p1 t1 =>
                cases t1 with
                | nil =>
                  obtain ⟨e, he⟩ := ih (b :: t) l hlen2 hlast h1 h2 r lvl
                  refine ⟨e, ?_⟩
                  rw [show parseLines (a :: b :: t) false r lvl =
                      parseLines (b :: t) false r lvl from by
                    simp [parseLines, hd, hh, hc, hsp]]
                  exact he
                | cons p2 t2 =>
                  cases t2 with
                  | nil =>
                    cases hap : append r (String.mk p1) (.str (String.mk p2)) lvl with
                    | error e =>
                      exact ⟨e, by simp [parseLines, hd, hh, hc, hsp, hap]⟩
                    | ok rr =>
                      obtain ⟨e, he⟩ := ih (b :: t) l hlen2 hlast h1 h2 rr lvl
                      refine ⟨e, ?_⟩
                      rw [show parseLines (a :: b :: t) false r lvl =
                          parseLines (b :: t) false rr lvl from by
                        simp [parseLines, hd, hh, hc, hsp, hap]]
                      exact he
                  | cons p3 t3 =>
                    obtain ⟨e, he⟩ := ih (b :: t) l hlen2 hlast h1 h2 r lvl
                    refine ⟨e, ?_⟩
                    rw [show parseLines (a :: b :: t) false r lvl =
                        parseLines (b :: t) false r lvl from by
                      simp [parseLines, hd, hh, hc, hsp]]
                    exact he
            · obtain ⟨e, he⟩ := ih (b :: t) l hlen2 hlast h1 h2 r lvl
              refine ⟨e, ?_⟩
              rw [show parseLines (a :: b :: t) false r lvl =
                  parseLines (b :: t) false r lvl from by
                simp [parseLines, hd, hh, hc]]
              exact he

/-- C1: decoding the Example 2 text yields the claimed structure and the
extraction succeeds with x = [100.0, 100.1] and y = [-42.1, -40.3], but
the section key is `"Trac"`, not `"Trace"`: `strip("Begin ")` removes the
character set {B, e, g, i, n, space} from both ends of `"Begin Trace"`
and so also strips the trailing `'e'`.  This theorem evaluates the code
at the input of the claim. -/
theorem c1_decode_extract :
    parseData c1text = .ok c1rec ∧
      headerKey "# Begin Trace" = "Trac" ∧
      parseSpectrum c1rec = .found [100, 1001/10] [-421/10, -403/10] := by
  refine ⟨rfl, rfl, ?_⟩
  have h : parseSpectrum c1rec =
      .found [((1000 : Int) : ℚ) / ((10 : Nat) : ℚ), ((1001 : Int) : ℚ) / ((10 : Nat) : ℚ)]
        [((-421 : Int) : ℚ) / ((10 : Nat) : ℚ), ((-403 : Int) : ℚ) / ((10 : Nat) : ℚ)] := rfl
  rw [h]
  norm_num

/-- C2: the decoded record of `c2text` holds, under its key `A`, a
non-empty node whose every key matches `P_<digits>` (the hit test is
true, and `search` on that node succeeds), yet `parseSpectrum` on the
whole record reports the spectrum as not found: the reversed-key loop
recurses into the last-inserted child `Sub` and returns its (empty)
result unconditionally, never backtracking to `A`.  This refutes the
claimed equivalence between extraction failure and the absence of a
matching subtree. -/
theorem c2_search_misses_subtree :
    parseData c2text = .ok c2rec ∧
      getVal c2rec "A" = some (.dict c2subA) ∧
      hitF c2subA = true ∧
      search c2subA = some [.str "-1.0 , 2.0 MHz"] ∧
      parseSpectrum c2rec = .spectrumNotFound :=
  ⟨rfl, rfl, rfl, rfl, rfl⟩

/-- C3: a line that starts with `"# "` and ends with `"Done"` updates the
nesting level to `max (level - 1) 1`, which is always at least 1: a Done
line never returns the cursor to the root level 0. -/
theorem c3_done_floor_one (line : String) (rest : List String) (r : Fields) (lvl : Nat)
    (h1 : pyStartsWith line "# " = true) (h2 : pyEndsWith line "Done" = true) :
    parseLines (line :: rest) false r lvl = parseLines rest false r (max (lvl - 1) 1) ∧
      1 ≤ max (lvl - 1) 1 := by
  constructor
  · simp [parseLines, h1, h2]
  · exact le_max_right _ _

/-- Witness for C3 at the line `"# T Done"` with nesting level 5. -/
theorem c3_witness :
    parseLines ["# T Done"] false .nil 5 = parseLines [] false .nil (max (5 - 1) 1) ∧
      1 ≤ max (5 - 1) 1 :=
  c3_done_floor_one "# T Done" [] .nil 5 rfl rfl

/-- C4: a nested write (level > 0) into a record with no keys fails with
the nesting error — `list(result.keys())[-1]` on an empty dict — and in
particular decoding Example 3 (`c4text`) fails with that error. -/
theorem c4_nesting_error (r : Fields) (k : String) (v : Value) (n : Nat)
    (h : keysF r = []) :
    append r k v (n + 1) = .error .nestingError ∧
      parseData c4text = .error .nestingError := by
  obtain rfl : r = .nil := by
    cases r with
    | nil => rfl
    | cons k0 v0 t => simp [keysF] at h
  exact ⟨rfl, rfl⟩

/-- Witness for C4: writing at level 1 into the empty record. -/
theorem c4_witness :
    append .nil "a" (.str "b") (0 + 1) = .error .nestingError ∧
      parseData c4text = .error .nestingError :=
  c4_nesting_error .nil "a" (.str "b") 0 rfl

/-- C5 counterexample: decoding `c5text` — whose pre-metadata record is
`{METADATA: {A: "1"}, Sec: {B: "2"}}` — returns `{METADATA: {}}`: the
assignment `result["METADATA"] = tmp_dict` overwrites the existing
`METADATA` section in place, and the rebuild order
`["METADATA"] + keys[:-1]` then drops the record-valued key `Sec`
entirely, so the remaining Record-valued keys do not all follow
`METADATA`. -/
theorem c5_metadata_collision :
    parseLines (pyLines c5text) false .nil 0 =
      .ok (.cons "METADATA" (.dict (.cons "A" (.str "1") .nil))
        (.cons "Sec" (.dict (.cons "B" (.str "2") .nil)) .nil)) ∧
      parseData c5text = .ok (.cons "METADATA" (.dict .nil) .nil) :=
  ⟨rfl, rfl⟩

/-- C6 counterexample: decoding `c6text` keeps the nested empty section
`Sub` — opened at depth one and never populated before the same-level
header `Tail` — as a key with an empty mapping: the pruning pass runs at
the top level only. -/
theorem c6_nested_empty_survives :
    parseData c6text =
      .ok (.cons "METADATA" (.dict .nil)
        (.cons "A"
          (.dict (.cons "x" (.str "1")
            (.cons "Sub" (.dict .nil)
              (.cons "Tail" (.dict (.cons "y" (.str "2") .nil)) .nil)))) .nil)) :=
  rfl

/-- C7: a header line immediately followed by a `<...>` annotation line
consumes the annotation (scanning resumes after it), inserts the new
section key directly into the root record whatever the current nesting
level was, and continues with level 1. -/
theorem c7_angle_reset_to_root (line next : String) (rest : List String) (r : Fields) (lvl : Nat)
    (h1 : pyStartsWith line "# " = true) (h2 : pyEndsWith line "Done" = false)
    (h3 : pyStartsWith next "<" = true) (h4 : pyEndsWith next ">" = true) :
    parseLines (line :: next :: rest) false r lvl =
      parseLines rest false (setKey r (headerKey line) (.dict .nil)) 1 := by
  simp [parseLines, append, h1, h2, h3, h4]

/-- Witness for C7: a header plus annotation seen at nesting level 7 over
a record with a deeply nested prior section inserts at the root. -/
theorem c7_witness :
    parseLines ["# S", "<x>"] false
        (.cons "Deep" (.dict (.cons "Inner" (.dict .nil) .nil)) .nil) 7 =
      parseLines [] false
        (setKey (.cons "Deep" (.dict (.cons "Inner" (.dict .nil) .nil)) .nil)
          (headerKey "# S") (.dict .nil)) 1 :=
  c7_angle_reset_to_root "# S" "<x>" []
    (.cons "Deep" (.dict (.cons "Inner" (.dict .nil) .nil)) .nil) 7 rfl rfl rfl rfl

/-- C8: decoding Example 1 yields exactly
`{METADATA: {Model: "MS2723B", Freq: "Unknown"}}` and extraction on that
record reports the spectrum as not found — an outcome distinct from the
other extraction outcomes, leaving the decoded record available. -/
theorem c8_metadata_only :
    parseData c8text = .ok c8rec ∧ parseSpectrum c8rec = .spectrumNotFound :=
  ⟨rfl, rfl⟩

/-- Splitting always yields at least one part. -/
theorem splitOnChar_ne_nil (c : Char) (l : List Char) : splitOnChar c l ≠ [] := by
  cases l with
  | nil => simp [splitOnChar]
  | cons x xs =>
    simp only [splitOnChar]
    cases splitOnChar c xs with
    | nil => simp
    | cons h t => by_cases hx : x = c <;> simp [hx]

/-- The line list of an input text is never empty. -/
theorem pyLines_ne_nil (text : String) : pyLines text ≠ [] := by
  unfold pyLines
  intro h
  exact splitOnChar_ne_nil '\n' text.toList (by simpa using h)

/-- C5 amended: for every input whose record before the metadata pass has
no top-level key named `METADATA`, decoding yields `METADATA` — holding
exactly the top-level scalar entries — first, followed by the
mapping-valued top-level entries in their prior relative order. -/
theorem c5_metadata_layout (text : String) (r0 : Fields)
    (hp : parseLines (pyLines text) false .nil 0 = .ok r0)
    (hm : hasKey (pruneStep r0) "METADATA" = false) :
    parseData text = .ok (.cons "METADATA" (.dict (strEntries (pruneStep r0)))
      (dictEntries (pruneStep r0))) := by
  have hnd0 : (keysF r0).Nodup :=
    parseLines_nodup (pyLines text).length (pyLines text) false .nil 0 r0
      le_rfl (by simp [keysF]) hp
  have hnd : (keysF (pruneStep r0)).Nodup := hnd0.sublist (keysF_pruneStep_sublist r0)
  rw [show parseData text = .ok (metaStep (pruneStep r0)) from by
    simp [parseData, hp]]
  rw [metaStep_eq _ hnd hm]

/-- Witness for C5 amended at the input `"a=1\n"`. -/
theorem c5_metadata_layout_witness :
    parseData "a=1\n" =
      .ok (.cons "METADATA"
        (.dict (strEntries (pruneStep (.cons "a" (.str "1") .nil))))
        (dictEntries (pruneStep (.cons "a" (.str "1") .nil)))) :=
  c5_metadata_layout "a=1\n" (.cons "a" (.str "1") .nil) rfl rfl

/-- C6 amended: pruning is a top-level guarantee — every non-`METADATA`
top-level entry of a decoded record holds a non-empty nested mapping (an
empty top-level section never survives); nested empty sections may
remain, as the counterexample shows. -/
theorem c6_top_level_prune (text : String) (r : Fields) (k : String) (v : Value)
    (h : parseData text = .ok r) (hm : (k, v) ∈ toListF r) (hk : k ≠ "METADATA") :
    ∃ d, v = .dict d ∧ d ≠ Fields.nil := by
  unfold parseData at h
  cases hp : parseLines (pyLines text) false .nil 0 with
  | error e =>
    rw [hp] at h
    simp at h
  | ok r0 =>
    rw [hp] at h
    simp only [Except.ok.injEq] at h
    subst h
    obtain ⟨hmem, d, rfl⟩ := metaStep_mem (pruneStep r0) k v hm hk
    have h2 := pruneStep_mem r0 k (.dict d) hmem
    refine ⟨d, rfl, ?_⟩
    intro he
    exact h2.2 (by rw [he])

/-- Witness for C6 amended: the non-`METADATA` entry `A` of the decoded
record of `"# A\nx=1\n"` holds a non-empty mapping. -/
theorem c6_top_level_prune_witness :
    ∃ d, Value.dict (Fields.cons "x" (.str "1") .nil) = .dict d ∧ d ≠ Fields.nil :=
  c6_top_level_prune "# A\nx=1\n"
    (.cons "METADATA" (.dict .nil)
      (.cons "A" (.dict (.cons "x" (.str "1") .nil)) .nil))
    "A" (.dict (.cons "x" (.str "1") .nil)) rfl
    (List.Mem.tail _ (List.Mem.head _)) (by decide)

/-- C9 amended: whenever the final line of the split input is a header
(starts with `"# "`, does not end with `"Done"`), decoding never returns
a record: it fails with some error — with the out-of-bounds look-ahead
error at the final line itself if no earlier line fails first, as the
second conjunct shows for the scan arriving at that line in any state. -/
theorem c9_final_header_fails (text : String)
    (h1 : pyStartsWith ((pyLines text).getLastD "") "# " = true)
    (h2 : pyEndsWith ((pyLines text).getLastD "") "Done" = false) :
    (∃ e, parseData text = .error e) ∧
      ∀ (r : Fields) (lvl : Nat),
        parseLines [(pyLines text).getLastD ""] false r lvl =
          .error .indexError := by
  have hne : pyLines text ≠ [] := pyLines_ne_nil text
  have hlast : (pyLines text).getLast? = some ((pyLines text).getLastD "") := by
    cases hg : (pyLines text).getLast? with
    | none => exact absurd (by simpa using hg) hne
    | some x => simp [List.getLastD_eq_getLast? _ _, hg]
  have key : ∀ (L : String) (r : Fields) (lvl : Nat),
      pyStartsWith L "# " = true → pyEndsWith L "Done" = false →
      parseLines [L] false r lvl = .error .indexError := by
    intro L r lvl hA hB
    simp [parseLines, hA, hB]
  refine ⟨?_, fun r lvl => key _ r lvl h1 h2⟩
  obtain ⟨e, he⟩ := parseLines_fails_of_last_header (pyLines text).length
    (pyLines text) _ le_rfl hlast h1 h2 .nil 0
  exact ⟨e, by simp [parseData, he]⟩

/-- Witness for C9 amended at the single header line `"# Y"`. -/
theorem c9_final_header_fails_witness :
    (∃ e, parseData "# Y" = .error e) ∧
      ∀ (r : Fields) (lvl : Nat),
        parseLines [(pyLines "# Y").getLastD ""] false r lvl =
          .error .indexError :=
  c9_final_header_fails "# Y" rfl rfl

/-- C10: whenever decoding returns a record, that record is non-empty and
its first key is `METADATA`, bound to a (possibly empty) flat map. -/
theorem c10_first_key_metadata (text : String) (r : Fields)
    (h : parseData text = .ok r) :
    ∃ md rest, r = Fields.cons "METADATA" (.dict md) rest := by
  unfold parseData at h
  cases hp : parseLines (pyLines text) false .nil 0 with
  | error e =>
    rw [hp] at h
    simp at h
  | ok r0 =>
    rw [hp] at h
    simp only [Except.ok.injEq] at h
    subst h
    obtain ⟨t, ht⟩ := metaStep_head (pruneStep r0)
    exact ⟨strEntries (pruneStep r0), t, ht⟩

/-- Witness for C10 at the empty input. -/
theorem c10_first_key_metadata_witness :
    ∃ md rest, Fields.cons "METADATA" (.dict .nil) .nil =
      Fields.cons "METADATA" (.dict md) rest :=
  c10_first_key_metadata "" (.cons "METADATA" (.dict .nil) .nil) rfl

/-- C9 counterexample: `c9text` ends (with no trailing newline) in the
header line `"# Y"`, so it is in the scope of the claim, yet decoding
fails with the nesting error raised by an earlier line, not with the
out-of-bounds look-ahead error. -/
theorem c9_earlier_error_wins :
    ((pyLines c9text).getLastD "" = "# Y") ∧
      pyStartsWith ((pyLines c9text).getLastD "") "# " = true ∧
      pyEndsWith ((pyLines c9text).getLastD "") "Done" = false ∧
      parseData c9text = .error .nestingError ∧
      DecodeErr.nestingError ≠ DecodeErr.indexError :=
  ⟨rfl, rfl, rfl, rfl, by decide⟩

end Anritsu
